import Mathlib

/-!
Shallow embedding of `src/lib.rs` (crate `substitute`): shell-style variable
substitution with pluggable value sources.  Strings are modelled as `List Char`;
the compiled `fancy_regex::Regex` of each built-in dialect is embedded as the
matching function it denotes (leftmost scan, first-alternative preference,
greedy `\w+`, negative lookbehind checked against the character preceding the
candidate position).  The regex class `\w` is modelled as ASCII alphanumeric
or underscore.
-/

namespace Substitute

/-- Text is modelled as a list of characters. -/
abbrev Str := List Char

/-- `Error` (lib.rs lines 7-17). -/
inductive Error
  | NotPresent
  | InvalidName
  | InvalidValue
deriving DecidableEq, Repr

/-- `OnNotPresent` (lib.rs lines 19-24). -/
inductive OnNotPresent
  | Error
  | Passthrough
  | Default (fallback : Str)
deriving DecidableEq, Repr

/-- The denotation of a compiled pattern, queried at one candidate position:
given the character immediately preceding the position (`none` at the start of
the haystack), the character at the position and the remaining tail, it returns
`none` (no match here) or `some (caps, n)` where `caps` is the flattened list
of participating capture texts (index 0 = whole match, index 1 = `name`,
index 2 = `default`, mirroring `captures.iter().flatten()` of lib.rs line 76)
and the match consumed the head character plus the first `n` characters of the
tail. -/
abbrev Matcher := Option Char → Char → List Char → Option (List Str × Nat)

/-- `Config` (lib.rs lines 26-31); `pattern` is the compiled regex, embedded as
its matching function. -/
structure Config where
  pattern : Matcher
  on_not_present : OnNotPresent
  escape : List (Str × Str)

/-- The regex class `\w`, restricted to ASCII: alphanumeric or underscore.
`fancy_regex`'s `\w` is Unicode-aware, and on ASCII characters it coincides
with this predicate; a theorem whose hypotheses treat a character as
non-word therefore confines that text to ASCII. -/
def isWordChar (c : Char) : Bool := c.isAlphanum || c = '_'

/-- ASCII characters: the fragment on which `isWordChar` agrees with the
Unicode-aware `\w` of `fancy_regex`. -/
def isAscii (c : Char) : Bool := c.toNat < 128

/-- Matching function of the bash pattern
`(?<!\\)\$(?:(?<name>\w+)|(?:\x7b(?<name>\w+)(?:-(?<default>\w+))?\x7d))`
(lib.rs line 44).  The first alternative (`$NAME`) is tried first; `\w+` is
greedy, and since every delimiter that may legally follow a `\w+` run is a
non-word character, the greedy run never needs to backtrack. -/
def bashTry : Matcher := fun prev c rest =>
  if prev = some '\\' then none
  else if c ≠ '$' then none
  else
    let w := rest.takeWhile isWordChar
    if w ≠ [] then
      some ([('$' :: w), w], w.length)
    else
      match rest with
      | [] => none
      | b :: r2 =>
        if b ≠ '\x7b' then none
        else
          let name := r2.takeWhile isWordChar
          if name = [] then none
          else
            match r2.dropWhile isWordChar with
            | [] => none
            | e :: _ =>
              if e = '\x7d' then
                some (['$' :: '\x7b' :: (name ++ ['\x7d']), name], name.length + 2)
              else if e = '-' then
                let d := (r2.dropWhile isWordChar).tail.takeWhile isWordChar
                if d = [] then none
                else
                  match (r2.dropWhile isWordChar).tail.dropWhile isWordChar with
                  | [] => none
                  | f :: _ =>
                    if f = '\x7d' then
                      some (['$' :: '\x7b' :: (name ++ '-' :: (d ++ ['\x7d'])), name, d],
                            name.length + d.length + 3)
                    else none
              else none

/-- Matching function of the docker pattern `(?<!\$)\$(?<name>\w+)`
(lib.rs line 53). -/
def dockerTry : Matcher := fun prev c rest =>
  if prev = some '$' then none
  else if c ≠ '$' then none
  else
    let w := rest.takeWhile isWordChar
    if w = [] then none
    else some ([('$' :: w), w], w.length)

/-- Matching function of the cmd pattern `(?<!\%)%(?<name>\w+)%`
(lib.rs line 60). -/
def cmdTry : Matcher := fun prev c rest =>
  if prev = some '%' then none
  else if c ≠ '%' then none
  else
    let w := rest.takeWhile isWordChar
    if w = [] then none
    else
      match rest.dropWhile isWordChar with
      | [] => none
      | e :: _ =>
        if e = '%' then some (['%' :: (w ++ ['%']), w], w.length + 1)
        else none

/-- One segment of the scan decomposition produced by `replace_all`'s
left-to-right pass: a character outside every match, or one match's flattened
captures. -/
inductive Seg
  | lit (c : Char)
  | mat (caps : List Str)
deriving DecidableEq, Repr

/-- Left-to-right non-overlapping scan of the haystack, as performed by
`Regex::replace_all` (lib.rs line 122).  `fuel` bounds the recursion and is
always called with `fuel ≥` length of the remaining text; `prev` is the
character of the haystack immediately before the current position. -/
def scanFuel (p : Matcher) : Nat → Option Char → List Char → List Seg
  | 0, _, _ => []
  | _, _, [] => []
  | fuel + 1, prev, c :: rest =>
    match p prev c rest with
    | none => .lit c :: scanFuel p fuel (some c) rest
    | some (caps, n) =>
      .mat caps :: scanFuel p fuel (some ((rest.take n).getLastD c)) (rest.drop n)

/-- All non-overlapping matches of `p` over `s`, interleaved with the
untouched characters. -/
def matcherScan (p : Matcher) (s : Str) : List Seg := scanFuel p s.length none s

/-- The flattened-captures lists of the matches of a scan, in order. -/
def matchesOf : List Seg → List (List Str)
  | [] => []
  | .lit _ :: segs => matchesOf segs
  | .mat caps :: segs => caps :: matchesOf segs

/-- The `name` captures of the matches of a scan, in order. -/
def matchNames (segs : List Seg) : List Str :=
  (matchesOf segs).filterMap (fun caps => caps[1]?)

/-- The per-match replacer closure (lib.rs lines 75-121): extract `name`
(capture 1) and `default` (capture 2) from the flattened captures, resolve
`name` through the value source, and decide the replacement text and the
recorded error.  Returns `none` where the Rust code would abort on
`expect` (a match without a `name` capture, or `Passthrough` on a match
without a whole-match capture); otherwise `some (recordedError, replacement,
resolvedName)`. -/
def applyMatch (get : Str → Except Error Str) (onp : OnNotPresent) (caps : List Str) :
    Option (Option Error × Str × Str) :=
  match caps[1]? with
  | none => none
  | some name =>
    match get name with
    | .ok v => some (none, v, name)
    | .error .NotPresent =>
      match caps[2]? with
      | some d => some (none, d, name)
      | none =>
        match onp with
        | .Error => some (some .NotPresent, [], name)
        | .Passthrough =>
          match caps[0]? with
          | none => none
          | some all => some (none, all, name)
        | .Default _ => some (none, [], name)
    | .error e => some (some e, [], name)

/-- Folds the replacer over the scan decomposition, mirroring `replace_all`
plus the `errors` vector of lib.rs line 73: returns the recorded errors in
push (left-to-right) order, the rewritten text, and the list of names that
were resolved through the value source, or `none` if any match made the
replacer abort. -/
def substituteAux (get : Str → Except Error Str) (onp : OnNotPresent) :
    List Seg → Option (List Error × Str × List Str)
  | [] => some ([], [], [])
  | .lit c :: segs =>
    (substituteAux get onp segs).map (fun r => (r.1, c :: r.2.1, r.2.2))
  | .mat caps :: segs =>
    match applyMatch get onp caps with
    | none => none
    | some (err?, repl, name) =>
      (substituteAux get onp segs).map
        (fun r => (err?.toList ++ r.1, repl ++ r.2.1, name :: r.2.2))

/-- `ValueProivder::substitute` (lib.rs lines 72-128): rewrite every match,
then fail with the most recently recorded error (`errors.pop()`, lib.rs line
123) if any error was recorded, otherwise succeed with the rewritten text.
`none` models a per-match `expect` abort. -/
def substitute (get : Str → Except Error Str) (config : Config) (on' : Str) :
    Option (Except Error Str) :=
  (substituteAux get config.on_not_present (matcherScan config.pattern on')).map
    (fun r =>
      match r.1.getLast? with
      | some e => .error e
      | none => .ok r.2.1)

/-- The names a call to `substitute` resolves through the value source, in
scan order (`self.get(name)`, lib.rs line 83). -/
def queries (get : Str → Except Error Str) (config : Config) (on' : Str) :
    Option (List Str) :=
  (substituteAux get config.on_not_present (matcherScan config.pattern on')).map
    (fun r => r.2.2)

/-- Whether a substitution result is a success carrying text. -/
def succeeds (r : Option (Except Error Str)) : Bool :=
  match r with
  | some (.ok _) => true
  | _ => false

/-- `Config::bash` (lib.rs lines 39-49). -/
def Config.bash : Config :=
  { on_not_present := .Default []
    pattern := bashTry
    escape := [(['\\', '$'], ['$'])] }

/-- `Config::docker` (lib.rs lines 50-56). -/
def Config.docker : Config :=
  { on_not_present := .Default []
    pattern := dockerTry
    escape := [(['$'], ['$', '$'])] }

/-- `Config::cmd` (lib.rs lines 57-63). -/
def Config.cmd : Config :=
  { on_not_present := .Default []
    pattern := cmdTry
    escape := [(['$'], ['$', '$'])] }

/-- Outcome of one `std::env::var` lookup, abstracting the process
environment: a unicode value, absence, or a non-unicode value. -/
inductive VarResult
  | ok (v : Str)
  | notPresent
  | notUnicode
deriving DecidableEq, Repr

/-- `Env::invalid_varible_name_pattern` (lib.rs lines 134-136). -/
def invalid_varible_name_pattern (c : Char) : Bool := c = '=' || c = Char.ofNat 0

/-- `<Env as ValueProivder>::get` (lib.rs lines 139-152), parameterised by the
process environment `var`. -/
def Env.get (var : Str → VarResult) (name : Str) : Except Error Str :=
  if name.any invalid_varible_name_pattern then .error .InvalidName
  else
    match var name with
    | .ok value => .ok value
    | .notPresent => .error .NotPresent
    | .notUnicode => .error .InvalidValue

/-- `<HashMap<String,String> as ValueProivder>::get` (lib.rs lines 155-162),
with the map abstracted as a partial function. -/
def hashMapGet (m : Str → Option Str) (name : Str) : Except Error Str :=
  match m name with
  | some value => .ok value
  | none => .error .NotPresent

/-- `env` (lib.rs lines 164-166), parameterised by the process environment. -/
def env (var : Str → VarResult) (expand : Str) : Option (Except Error Str) :=
  substitute (Env.get var) Config.bash expand

/-- The errors one match contributes to the `errors` vector of lib.rs line 73. -/
def errsOfMatch (get : Str → Except Error Str) (onp : OnNotPresent) (caps : List Str) :
    List Error :=
  match applyMatch get onp caps with
  | some (some e, _, _) => [e]
  | _ => []

/-! ## Supporting lemmas -/

theorem all_takeWhile (p : Char → Bool) (l : List Char) :
    (l.takeWhile p).all p = true := by
  induction l with
  | nil => rfl
  | cons c t ih =>
    by_cases h : p c
    · simp [List.takeWhile_cons, h, ih]
    · simp [List.takeWhile_cons, h]

theorem takeWhile_append_all (p : Char → Bool) (l t : List Char) (h : l.all p = true) :
    (l ++ t).takeWhile p = l ++ t.takeWhile p := by
  induction l with
  | nil => rfl
  | cons c r ih =>
    simp only [List.all_cons, Bool.and_eq_true] at h
    simp [List.takeWhile_cons, h.1, ih h.2]

theorem dropWhile_append_all (p : Char → Bool) (l t : List Char) (h : l.all p = true) :
    (l ++ t).dropWhile p = t.dropWhile p := by
  induction l with
  | nil => rfl
  | cons c r ih =>
    simp only [List.all_cons, Bool.and_eq_true] at h
    simp [List.dropWhile_cons, h.1, ih h.2]

theorem takeWhile_append_not_all (p : Char → Bool) (l t : List Char) (h : l.all p = false) :
    (l ++ t).takeWhile p = l.takeWhile p := by
  induction l with
  | nil => simp at h
  | cons c r ih =>
    by_cases hc : p c
    · simp only [List.all_cons, hc, Bool.true_and] at h
      simp [List.takeWhile_cons, hc, ih h]
    · simp [List.takeWhile_cons, hc]

theorem dropWhile_append_not_all (p : Char → Bool) (l t : List Char) (h : l.all p = false) :
    (l ++ t).dropWhile p = l.dropWhile p ++ t := by
  induction l with
  | nil => simp at h
  | cons c r ih =>
    by_cases hc : p c
    · simp only [List.all_cons, hc, Bool.true_and] at h
      simp [List.dropWhile_cons, hc, ih h]
    · simp [List.dropWhile_cons, hc]

theorem dropWhile_not_all (p : Char → Bool) (l : List Char) (h : l.all p = false) :
    ∃ c r, l.dropWhile p = c :: r ∧ p c = false ∧ c ∈ l := by
  induction l with
  | nil => simp at h
  | cons c r ih =>
    by_cases hc : p c
    · simp only [List.all_cons, hc, Bool.true_and] at h
      obtain ⟨c0, r0, h1, h2, h3⟩ := ih h
      exact ⟨c0, r0, by simp [List.dropWhile_cons, hc, h1], h2, by simp [h3]⟩
    · exact ⟨c, r, by simp [List.dropWhile_cons, hc], by simpa using hc, by simp⟩

theorem scanFuel_nil (p : Matcher) (fuel : Nat) (prev : Option Char) :
    scanFuel p fuel prev [] = [] := by
  cases fuel <;> rfl

theorem scanFuel_cons_none (p : Matcher) (fuel : Nat) (prev : Option Char)
    (c : Char) (rest : List Char) (h : p prev c rest = none) :
    scanFuel p (fuel + 1) prev (c :: rest) = .lit c :: scanFuel p fuel (some c) rest := by
  rw [scanFuel, h]

theorem scanFuel_cons_some (p : Matcher) (fuel : Nat) (prev : Option Char)
    (c : Char) (rest : List Char) (caps : List Str) (n : Nat)
    (h : p prev c rest = some (caps, n)) :
    scanFuel p (fuel + 1) prev (c :: rest) =
      .mat caps :: scanFuel p fuel (some ((rest.take n).getLastD c)) (rest.drop n) := by
  rw [scanFuel, h]

theorem mem_matchesOf_scanFuel (p : Matcher) :
    ∀ (fuel : Nat) (prev : Option Char) (s : List Char) (caps : List Str),
      caps ∈ matchesOf (scanFuel p fuel prev s) →
      ∃ pr c rest n, p pr c rest = some (caps, n) := by
  intro fuel
  induction fuel with
  | zero => intro prev s caps h; simp [scanFuel, matchesOf] at h
  | succ fuel ih =>
    intro prev s caps h
    cases s with
    | nil => simp [scanFuel, matchesOf] at h
    | cons c rest =>
      cases hp : p prev c rest with
      | none =>
        rw [scanFuel_cons_none p fuel prev c rest hp] at h
        exact ih _ _ _ (by simpa [matchesOf] using h)
      | some r =>
        obtain ⟨caps0, n⟩ := r
        rw [scanFuel_cons_some p fuel prev c rest caps0 n hp] at h
        simp only [matchesOf, List.mem_cons] at h
        rcases h with h | h
        · exact ⟨prev, c, rest, n, by rw [hp, h]⟩
        · exact ih _ _ _ h

theorem scanFuel_no_match (p : Matcher) :
    ∀ (fuel : Nat) (prev : Option Char) (s : List Char), s.length ≤ fuel →
      matchesOf (scanFuel p fuel prev s) = [] →
      scanFuel p fuel prev s = s.map Seg.lit := by
  intro fuel
  induction fuel with
  | zero =>
    intro prev s hlen _
    cases s with
    | nil => rfl
    | cons c rest => simp at hlen
  | succ fuel ih =>
    intro prev s hlen hm
    cases s with
    | nil => rfl
    | cons c rest =>
      cases hp : p prev c rest with
      | none =>
        rw [scanFuel_cons_none p fuel prev c rest hp] at hm ⊢
        simp only [matchesOf] at hm
        simp only [List.map_cons, List.cons.injEq, true_and]
        exact ih _ _ (by simpa using hlen) hm
      | some r =>
        obtain ⟨caps0, n⟩ := r
        rw [scanFuel_cons_some p fuel prev c rest caps0 n hp] at hm
        simp [matchesOf] at hm

theorem scanFuel_of_fail (p : Matcher) :
    ∀ (fuel : Nat) (pre s : List Char), s.length ≤ fuel →
      (∀ mid c rest, s = mid ++ c :: rest → p ((pre ++ mid).getLast?) c rest = none) →
      scanFuel p fuel pre.getLast? s = s.map Seg.lit := by
  intro fuel
  induction fuel with
  | zero =>
    intro pre s hlen _
    cases s with
    | nil => rfl
    | cons c rest => simp at hlen
  | succ fuel ih =>
    intro pre s hlen hfail
    cases s with
    | nil => rfl
    | cons c rest =>
      have h0 : p pre.getLast? c rest = none := by
        have := hfail [] c rest rfl
        simpa using this
      rw [scanFuel_cons_none p fuel pre.getLast? c rest h0]
      simp only [List.map_cons, List.cons.injEq, true_and]
      have hpre : (pre ++ [c]).getLast? = some c := by
        simp
      calc scanFuel p fuel (some c) rest
          = scanFuel p fuel (pre ++ [c]).getLast? rest := by rw [hpre]
        _ = rest.map Seg.lit := by
            refine ih (pre ++ [c]) rest (by simpa using hlen) ?_
            intro mid c0 r0 hrest
            have : c :: rest = (c :: mid) ++ c0 :: r0 := by simp [hrest]
            have := hfail (c :: mid) c0 r0 this
            simpa [List.append_assoc] using this

theorem matcherScan_of_fail (p : Matcher) (s : List Char)
    (hfail : ∀ mid c rest, s = mid ++ c :: rest → p mid.getLast? c rest = none) :
    matcherScan p s = s.map Seg.lit := by
  have := scanFuel_of_fail p s.length [] s le_rfl (by simpa using hfail)
  simpa [matcherScan] using this

theorem substituteAux_lits (get : Str → Except Error Str) (onp : OnNotPresent)
    (s : List Char) :
    substituteAux get onp (s.map Seg.lit) = some ([], s, []) := by
  induction s with
  | nil => rfl
  | cons c rest ih => simp [substituteAux, ih]

theorem substitute_no_match (get : Str → Except Error Str) (config : Config) (s : Str)
    (hm : matchesOf (matcherScan config.pattern s) = []) :
    substitute get config s = some (.ok s) ∧ queries get config s = some [] := by
  have hscan : matcherScan config.pattern s = s.map Seg.lit :=
    scanFuel_no_match config.pattern s.length none s le_rfl hm
  constructor
  · rw [substitute, hscan, substituteAux_lits]
    rfl
  · rw [queries, hscan, substituteAux_lits]
    rfl

theorem applyMatch_name (get : Str → Except Error Str) (onp : OnNotPresent)
    (caps : List Str) (e : Option Error) (r nm : Str)
    (h : applyMatch get onp caps = some (e, r, nm)) : caps[1]? = some nm := by
  cases h1 : caps[1]? with
  | none => simp [applyMatch, h1] at h
  | some name0 =>
    cases hv : get name0 with
    | ok v =>
      simp only [applyMatch, h1, hv, Option.some.injEq, Prod.mk.injEq] at h
      exact congrArg some h.2.2
    | error err =>
      cases err with
      | NotPresent =>
        cases h2 : caps[2]? with
        | some d =>
          simp only [applyMatch, h1, hv, h2, Option.some.injEq, Prod.mk.injEq] at h
          exact congrArg some h.2.2
        | none =>
          cases onp with
          | Error =>
            simp only [applyMatch, h1, hv, h2, Option.some.injEq, Prod.mk.injEq] at h
            exact congrArg some h.2.2
          | Passthrough =>
            cases h0 : caps[0]? with
            | none => simp [applyMatch, h1, hv, h2, h0] at h
            | some all =>
              simp only [applyMatch, h1, hv, h2, h0, Option.some.injEq,
                Prod.mk.injEq] at h
              exact congrArg some h.2.2
          | Default fb =>
            simp only [applyMatch, h1, hv, h2, Option.some.injEq, Prod.mk.injEq] at h
            exact congrArg some h.2.2
      | InvalidName =>
        simp only [applyMatch, h1, hv, Option.some.injEq, Prod.mk.injEq] at h
        exact congrArg some h.2.2
      | InvalidValue =>
        simp only [applyMatch, h1, hv, Option.some.injEq, Prod.mk.injEq] at h
        exact congrArg some h.2.2

theorem applyMatch_isSome (get : Str → Except Error Str) (onp : OnNotPresent)
    (caps : List Str) (h1 : (caps[1]?).isSome) (h0 : (caps[0]?).isSome) :
    (applyMatch get onp caps).isSome := by
  obtain ⟨name0, hn⟩ := Option.isSome_iff_exists.mp h1
  obtain ⟨all0, ha⟩ := Option.isSome_iff_exists.mp h0
  cases hv : get name0 with
  | ok v => simp [applyMatch, hn, hv]
  | error err =>
    cases err with
    | NotPresent =>
      cases h2 : caps[2]? with
      | some d => simp [applyMatch, hn, hv, h2]
      | none =>
        cases onp with
        | Error => simp [applyMatch, hn, hv, h2]
        | Passthrough => simp [applyMatch, hn, hv, h2, ha]
        | Default fb => simp [applyMatch, hn, hv, h2]
    | InvalidName => simp [applyMatch, hn, hv]
    | InvalidValue => simp [applyMatch, hn, hv]

theorem errsOfMatch_eq (get : Str → Except Error Str) (onp : OnNotPresent)
    (caps : List Str) (err? : Option Error) (repl name : Str)
    (h : applyMatch get onp caps = some (err?, repl, name)) :
    errsOfMatch get onp caps = err?.toList := by
  unfold errsOfMatch
  rw [h]
  cases err? <;> rfl

theorem substituteAux_spec (get : Str → Except Error Str) (onp : OnNotPresent) :
    ∀ segs : List Seg,
      (∀ caps ∈ matchesOf segs, (applyMatch get onp caps).isSome) →
      ∃ errs t qs, substituteAux get onp segs = some (errs, t, qs) ∧
        errs = (matchesOf segs).flatMap (errsOfMatch get onp) ∧
        qs = matchNames segs := by
  intro segs
  induction segs with
  | nil => exact fun _ => ⟨[], [], [], rfl, rfl, rfl⟩
  | cons seg segs ih =>
    intro h
    cases seg with
    | lit c =>
      obtain ⟨errs, t, qs, haux, herrs, hqs⟩ :=
        ih (fun caps hc => h caps (by simpa [matchesOf] using hc))
      exact ⟨errs, c :: t, qs, by simp [substituteAux, haux],
        by simpa [matchesOf] using herrs, by simpa [matchNames, matchesOf] using hqs⟩
    | mat caps =>
      have hs : (applyMatch get onp caps).isSome := h caps (by simp [matchesOf])
      obtain ⟨⟨err?, repl, name⟩, happ⟩ := Option.isSome_iff_exists.mp hs
      obtain ⟨errs, t, qs, haux, herrs, hqs⟩ :=
        ih (fun caps0 hc => h caps0 (by simp [matchesOf, hc]))
      refine ⟨err?.toList ++ errs, repl ++ t, name :: qs, ?_, ?_, ?_⟩
      · simp [substituteAux, happ, haux]
      · simp [matchesOf, herrs, errsOfMatch_eq get onp caps err? repl name happ]
      · simp [matchNames, matchesOf, List.filterMap_cons,
          applyMatch_name get onp caps err? repl name happ]
        simpa [matchNames] using hqs

theorem substitute_eq_of_spec (get : Str → Except Error Str) (config : Config) (s : Str)
    (h : ∀ caps ∈ matchesOf (matcherScan config.pattern s),
      (applyMatch get config.on_not_present caps).isSome) :
    ∃ errs t, substitute get config s =
        some (match errs.getLast? with | some e => .error e | none => .ok t) ∧
      errs = (matchesOf (matcherScan config.pattern s)).flatMap
        (errsOfMatch get config.on_not_present) ∧
      queries get config s = some (matchNames (matcherScan config.pattern s)) := by
  obtain ⟨errs, t, qs, haux, herrs, hqs⟩ := substituteAux_spec get config.on_not_present _ h
  exact ⟨errs, t, by rw [substitute, haux]; rfl, herrs, by rw [queries, haux, hqs]; rfl⟩

theorem bashTry_shape (prev : Option Char) (c : Char) (rest : List Char)
    (caps : List Str) (n : Nat) (h : bashTry prev c rest = some (caps, n)) :
    ∃ name, name ≠ [] ∧ name.all isWordChar = true ∧
      (caps = ['$' :: name, name] ∨
       caps = ['$' :: '\x7b' :: (name ++ ['\x7d']), name] ∨
       ∃ d, d ≠ [] ∧ d.all isWordChar = true ∧
         caps = ['$' :: '\x7b' :: (name ++ '-' :: (d ++ ['\x7d'])), name, d]) := by
  simp only [bashTry] at h
  split at h
  · cases h
  split at h
  · cases h
  split at h
  case isTrue hw =>
    simp only [Option.some.injEq, Prod.mk.injEq] at h
    exact ⟨rest.takeWhile isWordChar, hw, all_takeWhile _ _, Or.inl h.1.symm⟩
  case isFalse hw =>
    split at h
    · cases h
    case h_2 b r2 =>
      split at h
      · cases h
      case isFalse hb =>
        split at h
        · cases h
        case isFalse hname =>
          split at h
          · cases h
          case h_2 e r3 =>
            split at h
            case isTrue he =>
              simp only [Option.some.injEq, Prod.mk.injEq] at h
              exact ⟨r2.takeWhile isWordChar, hname, all_takeWhile _ _, Or.inr (Or.inl h.1.symm)⟩
            case isFalse he =>
              split at h
              case isFalse he2 => cases h
              case isTrue he2 =>
                split at h
                · cases h
                case isFalse hd =>
                  split at h
                  · cases h
                  case h_2 f r4 =>
                    split at h
                    case isFalse hf => cases h
                    case isTrue hf =>
                      simp only [Option.some.injEq, Prod.mk.injEq] at h
                      exact ⟨r2.takeWhile isWordChar, hname, all_takeWhile _ _,
                        Or.inr (Or.inr ⟨_, hd, all_takeWhile _ _, h.1.symm⟩)⟩

theorem dockerTry_shape (prev : Option Char) (c : Char) (rest : List Char)
    (caps : List Str) (n : Nat) (h : dockerTry prev c rest = some (caps, n)) :
    ∃ name, name ≠ [] ∧ name.all isWordChar = true ∧ caps = ['$' :: name, name] := by
  simp only [dockerTry] at h
  split at h
  · cases h
  split at h
  · cases h
  split at h
  · cases h
  case isFalse hw =>
    simp only [Option.some.injEq, Prod.mk.injEq] at h
    exact ⟨rest.takeWhile isWordChar, hw, all_takeWhile _ _, h.1.symm⟩

theorem cmdTry_shape (prev : Option Char) (c : Char) (rest : List Char)
    (caps : List Str) (n : Nat) (h : cmdTry prev c rest = some (caps, n)) :
    ∃ name, name ≠ [] ∧ name.all isWordChar = true ∧
      caps = ['%' :: (name ++ ['%']), name] := by
  simp only [cmdTry] at h
  split at h
  · cases h
  split at h
  · cases h
  split at h
  · cases h
  case isFalse hw =>
    split at h
    · cases h
    case h_2 e r3 =>
      split at h
      case isFalse he => cases h
      case isTrue he =>
        simp only [Option.some.injEq, Prod.mk.injEq] at h
        exact ⟨rest.takeWhile isWordChar, hw, all_takeWhile _ _, h.1.symm⟩

theorem word_lbrace : isWordChar '\x7b' = false := by decide

theorem word_rbrace : isWordChar '\x7d' = false := by decide

theorem word_dash : isWordChar '-' = false := by decide

theorem word_dollar : isWordChar '$' = false := by decide

theorem bashTry_ne_dollar (prev : Option Char) (c : Char) (rest : List Char)
    (h : ¬ c = '$') : bashTry prev c rest = none := by
  by_cases hp : prev = some '\\' <;> simp [bashTry, hp, h]

theorem bashTry_inline_default (n d : Str) (hn : n ≠ []) (hnw : n.all isWordChar = true)
    (hd : d ≠ []) (hdw : d.all isWordChar = true) :
    bashTry none '$' ('\x7b' :: (n ++ '-' :: (d ++ ['\x7d']))) =
      some (['$' :: '\x7b' :: (n ++ '-' :: (d ++ ['\x7d'])), n, d],
            n.length + d.length + 3) := by
  have htw1 : ('\x7b' :: (n ++ '-' :: (d ++ ['\x7d']))).takeWhile isWordChar = [] := by
    simp [List.takeWhile_cons, word_lbrace]
  have htw2 : (n ++ '-' :: (d ++ ['\x7d'])).takeWhile isWordChar = n := by
    rw [takeWhile_append_all isWordChar n _ hnw]
    simp [List.takeWhile_cons, word_dash]
  have hdw2 : (n ++ '-' :: (d ++ ['\x7d'])).dropWhile isWordChar = '-' :: (d ++ ['\x7d']) := by
    rw [dropWhile_append_all isWordChar n _ hnw]
    simp [List.dropWhile_cons, word_dash]
  have htw3 : (d ++ ['\x7d']).takeWhile isWordChar = d := by
    rw [takeWhile_append_all isWordChar d _ hdw]
    simp [List.takeWhile_cons, word_rbrace]
  have hdw3 : (d ++ ['\x7d']).dropWhile isWordChar = ['\x7d'] := by
    rw [dropWhile_append_all isWordChar d _ hdw]
    simp [List.dropWhile_cons, word_rbrace]
  simp [bashTry, htw1, htw2, hdw2, htw3, hdw3, hn, hd]

theorem bashScan_inline_default (n d : Str) (hn : n ≠ []) (hnw : n.all isWordChar = true)
    (hd : d ≠ []) (hdw : d.all isWordChar = true) :
    matcherScan bashTry ('$' :: '\x7b' :: (n ++ '-' :: (d ++ ['\x7d']))) =
      [.mat ['$' :: '\x7b' :: (n ++ '-' :: (d ++ ['\x7d'])), n, d]] := by
  have hmatch := bashTry_inline_default n d hn hnw hd hdw
  rw [matcherScan, List.length_cons,
    scanFuel_cons_some bashTry _ none '$' _ _ _ hmatch]
  have hdrop : ('\x7b' :: (n ++ '-' :: (d ++ ['\x7d']))).drop (n.length + d.length + 3) = [] := by
    apply List.drop_eq_nil_of_le
    simp
    omega
  rw [hdrop, scanFuel_nil]

theorem bashTry_bad_default (n d : Str) (hn : n ≠ []) (hnw : n.all isWordChar = true)
    (hd : d = [] ∨ d.all isWordChar = false) (hdr : '\x7d' ∉ d) :
    bashTry none '$' ('\x7b' :: (n ++ '-' :: (d ++ ['\x7d']))) = none := by
  have htw1 : ('\x7b' :: (n ++ '-' :: (d ++ ['\x7d']))).takeWhile isWordChar = [] := by
    simp [List.takeWhile_cons, word_lbrace]
  have htw2 : (n ++ '-' :: (d ++ ['\x7d'])).takeWhile isWordChar = n := by
    rw [takeWhile_append_all isWordChar n _ hnw]
    simp [List.takeWhile_cons, word_dash]
  have hdw2 : (n ++ '-' :: (d ++ ['\x7d'])).dropWhile isWordChar = '-' :: (d ++ ['\x7d']) := by
    rw [dropWhile_append_all isWordChar n _ hnw]
    simp [List.dropWhile_cons, word_dash]
  rcases hd with hd | hd
  · have htw3 : (d ++ ['\x7d']).takeWhile isWordChar = [] := by
      rw [hd]
      simp [List.takeWhile_cons, word_rbrace]
    simp [bashTry, htw1, htw2, hdw2, hn, htw3]
  · obtain ⟨c1, r1, hdrop1, hw1, hmem1⟩ := dropWhile_not_all isWordChar d hd
    have hdw3 : (d ++ ['\x7d']).dropWhile isWordChar = c1 :: (r1 ++ ['\x7d']) := by
      rw [dropWhile_append_not_all isWordChar d _ hd, hdrop1]
      simp
    have hne : ¬ (c1 = '\x7d') := fun hc => hdr (hc ▸ hmem1)
    have htw3 : (d ++ ['\x7d']).takeWhile isWordChar = d.takeWhile isWordChar :=
      takeWhile_append_not_all isWordChar d _ hd
    cases hdw0 : d.takeWhile isWordChar with
    | nil => simp [bashTry, htw1, htw2, hdw2, hn, htw3, hdw0]
    | cons c0 r0 => simp [bashTry, htw1, htw2, hdw2, hn, htw3, hdw0, hdw3, hne]

theorem bashScan_bad_default (n d : Str) (hn : n ≠ []) (hnw : n.all isWordChar = true)
    (hd : d = [] ∨ d.all isWordChar = false) (hds : '$' ∉ d) (hdr : '\x7d' ∉ d) :
    matcherScan bashTry ('$' :: '\x7b' :: (n ++ '-' :: (d ++ ['\x7d']))) =
      ('$' :: '\x7b' :: (n ++ '-' :: (d ++ ['\x7d']))).map Seg.lit := by
  apply matcherScan_of_fail
  intro mid c rest hsplit
  cases mid with
  | nil =>
    simp only [List.nil_append, List.cons.injEq] at hsplit
    obtain ⟨hc, hrest⟩ := hsplit
    subst hc
    subst hrest
    simpa using bashTry_bad_default n d hn hnw hd hdr
  | cons m ms =>
    simp only [List.cons_append, List.cons.injEq] at hsplit
    obtain ⟨hm, htail⟩ := hsplit
    have hcmem : c ∈ '\x7b' :: (n ++ '-' :: (d ++ ['\x7d'])) := by
      rw [htail]
      simp
    apply bashTry_ne_dollar
    intro hceq
    subst hceq
    simp only [List.mem_cons, List.mem_append, List.mem_singleton] at hcmem
    rcases hcmem with h | h | h | h | h
    · exact absurd h (by decide)
    · have := List.all_eq_true.mp hnw _ h
      rw [word_dollar] at this
      cases this
    · exact absurd h (by decide)
    · exact hds h
    · exact absurd h (by decide)

theorem matchesOf_map_lit (s : Str) : matchesOf (s.map Seg.lit) = [] := by
  induction s with
  | nil => rfl
  | cons c rest ih => simp [matchesOf, ih]

/-! ## Claims -/

/-- C7: for every dialect and every value source, if the input text contains no
match of the dialect's pattern, `substitute` succeeds and returns the input
unchanged (substitution is the identity function and never fails). -/
theorem no_placeholder_identity (config : Config) (get : Str → Except Error Str) (s : Str)
    (h : matchesOf (matcherScan config.pattern s) = []) :
    substitute get config s = some (.ok s) :=
  (substitute_no_match get config s h).1

theorem no_placeholder_identity_witness :
    substitute (fun _ => .error .NotPresent) Config.docker ("hello".toList) =
      some (.ok ("hello".toList)) :=
  no_placeholder_identity Config.docker (fun _ => .error .NotPresent) ("hello".toList)
    (by decide)

/-- C9: the substitution engine never reads the dialect's escape list: two
configurations agreeing on `pattern` and `on_not_present` but with arbitrary
`escape` fields produce identical results from `substitute` (and resolve the
same names). -/
theorem escape_field_unused (cfgA cfgB : Config) (get : Str → Except Error Str) (s : Str)
    (hp : cfgA.pattern = cfgB.pattern) (ho : cfgA.on_not_present = cfgB.on_not_present) :
    substitute get cfgA s = substitute get cfgB s ∧
      queries get cfgA s = queries get cfgB s := by
  constructor <;> simp only [substitute, queries, hp, ho]

theorem escape_field_unused_witness :
    substitute (fun _ => .error .NotPresent) Config.bash ("$A".toList) =
      substitute (fun _ => .error .NotPresent)
        { Config.bash with escape := [] } ("$A".toList) :=
  (escape_field_unused Config.bash { Config.bash with escape := [] }
    (fun _ => .error .NotPresent) ("$A".toList) rfl rfl).1

/-- C8: `Env::get` fails with `InvalidName` exactly when the name contains `=`
or NUL, independently of the backing environment (so even when a variable of
that name exists); for names passing the check it returns the value on success,
`NotPresent` when unset, and `InvalidValue` for non-unicode values. -/
theorem env_get_contract (var : Str → VarResult) (name : Str) :
    (Env.get var name = .error .InvalidName ↔
      name.any invalid_varible_name_pattern = true) ∧
    (name.any invalid_varible_name_pattern = false →
      ((∀ v, var name = .ok v → Env.get var name = .ok v) ∧
       (var name = .notPresent → Env.get var name = .error .NotPresent) ∧
       (var name = .notUnicode → Env.get var name = .error .InvalidValue))) := by
  by_cases hb : name.any invalid_varible_name_pattern = true
  · refine ⟨⟨fun _ => hb, fun _ => by simp [Env.get, hb]⟩, fun hf => absurd hb (by simp [hf])⟩
  · have hb' : name.any invalid_varible_name_pattern = false := by
      simpa using hb
    refine ⟨⟨fun h => ?_, fun h => absurd h hb⟩, fun _ => ⟨fun v hv => ?_, fun hv => ?_, fun hv => ?_⟩⟩
    · exfalso
      cases hv : var name <;> simp [Env.get, hb', hv] at h
    · simp [Env.get, hb', hv]
    · simp [Env.get, hb', hv]
    · simp [Env.get, hb', hv]

theorem env_get_contract_witness :
    Env.get (fun _ => .ok ['x']) ("BAD=NAME".toList) = .error .InvalidName :=
  (env_get_contract (fun _ => .ok ['x']) ("BAD=NAME".toList)).1.mpr (by decide)

/-- C3: whenever at least one error was recorded during the scan, the call
fails with the most recently recorded error (the last one, not the first), and
the rewritten text is discarded: the failure result carries no text. -/
theorem last_error_wins (get : Str → Except Error Str) (config : Config) (s : Str)
    (errs : List Error) (t : Str) (qs : List Str)
    (haux : substituteAux get config.on_not_present (matcherScan config.pattern s) =
      some (errs, t, qs))
    (hne : errs ≠ []) :
    substitute get config s = some (.error (errs.getLast hne)) ∧
      ∀ t0, substitute get config s ≠ some (.ok t0) := by
  have h1 : substitute get config s = some (.error (errs.getLast hne)) := by
    rw [substitute, haux]
    simp [List.getLast?_eq_getLast errs hne]
  refine ⟨h1, fun t0 h0 => ?_⟩
  rw [h1] at h0
  simp at h0

theorem last_error_wins_witness :
    substitute
      (fun nm => if nm = ['A'] then .error .InvalidName
        else if nm = ['B'] then .error .InvalidValue else .error .NotPresent)
      Config.bash ("$A $B".toList) = some (.error .InvalidValue) :=
  (last_error_wins
    (fun nm => if nm = ['A'] then .error .InvalidName
      else if nm = ['B'] then .error .InvalidValue else .error .NotPresent)
    Config.bash ("$A $B".toList) [.InvalidName, .InvalidValue] [' '] [['A'], ['B']]
    rfl (by decide)).1

/-- C2 (counterexample to the claim as stated): in bash mode the input
`\$LITERAL` is returned unchanged — `\$LITERAL`, not `$LITERAL` — because
`substitute` never applies the dialect's escape list, so the escape marker is
not removed from the output. -/
theorem escaped_sentinel_marker_kept :
    substitute (fun _ => .error .NotPresent) Config.bash ("\\$LITERAL".toList) =
      some (.ok ("\\$LITERAL".toList)) ∧
    ("\\$LITERAL".toList : Str) ≠ "$LITERAL".toList :=
  ⟨rfl, by decide⟩

/-- C2 (amended): in bash mode an escaped sentinel `\$` is never treated as a
placeholder start (the lookbehind rejects any position preceded by `\`), no
value-source resolution happens for that span, and the span appears in the
output verbatim, escape marker included: `\$LITERAL` stays `\$LITERAL`. -/
theorem escaped_sentinel_not_placeholder (get : Str → Except Error Str) :
    substitute get Config.bash ("\\$LITERAL".toList) =
      some (.ok ("\\$LITERAL".toList)) ∧
    queries get Config.bash ("\\$LITERAL".toList) = some [] ∧
    ∀ c rest, bashTry (some '\\') c rest = none :=
  ⟨rfl, rfl, fun _ _ => rfl⟩

/-- C1: under any dialect whose `on_not_present` policy is `Default fb` (as in
all three built-in presets), an absent, default-less placeholder is replaced by
empty text — the configured fallback is never emitted — with no error recorded,
and a call whose placeholders all resolve or fail only with `NotPresent`
succeeds. -/
theorem default_policy_empty (config : Config) (fb : Str) (get : Str → Except Error Str)
    (s : Str) (honp : config.on_not_present = .Default fb)
    (hres : ∀ caps ∈ matchesOf (matcherScan config.pattern s),
      ∃ name, caps[1]? = some name ∧
        (get name = .error .NotPresent ∨ ∃ v, get name = .ok v)) :
    (∀ caps name, caps[1]? = some name → caps[2]? = none →
      get name = .error .NotPresent →
      applyMatch get config.on_not_present caps = some (none, [], name)) ∧
    succeeds (substitute get config s) = true := by
  constructor
  · intro caps name h1 h2 hget
    rw [honp]
    simp [applyMatch, h1, hget, h2]
  · have hall : ∀ caps ∈ matchesOf (matcherScan config.pattern s),
        (applyMatch get config.on_not_present caps).isSome := by
      intro caps hc
      obtain ⟨name, h1, hcase⟩ := hres caps hc
      rw [honp]
      rcases hcase with hget | ⟨v, hget⟩
      · cases h2 : caps[2]? with
        | none => simp [applyMatch, h1, hget, h2]
        | some dd => simp [applyMatch, h1, hget, h2]
      · simp [applyMatch, h1, hget]
    obtain ⟨errs, t, hsub, herrs, hq⟩ := substitute_eq_of_spec get config s hall
    have herrnil : errs = [] := by
      rw [herrs]
      apply List.eq_nil_iff_forall_not_mem.mpr
      intro e he
      rw [List.mem_flatMap] at he
      obtain ⟨caps, hcmem, hemem⟩ := he
      obtain ⟨name, h1, hcase⟩ := hres caps hcmem
      have hnil : errsOfMatch get config.on_not_present caps = [] := by
        rcases hcase with hget | ⟨v, hget⟩
        · cases h2 : caps[2]? with
          | none =>
            exact errsOfMatch_eq get config.on_not_present caps none [] name
              (by rw [honp]; simp [applyMatch, h1, hget, h2])
          | some dd =>
            exact errsOfMatch_eq get config.on_not_present caps none dd name
              (by rw [honp]; simp [applyMatch, h1, hget, h2])
        · exact errsOfMatch_eq get config.on_not_present caps none v name
            (by rw [honp]; simp [applyMatch, h1, hget])
      rw [hnil] at hemem
      simp at hemem
    rw [herrnil] at hsub
    rw [hsub]
    rfl

theorem default_policy_empty_witness :
    succeeds (substitute (fun _ => .error .NotPresent) Config.bash
      ("$MISSING".toList)) = true :=
  (default_policy_empty Config.bash [] (fun _ => .error .NotPresent) ("$MISSING".toList)
    rfl
    (by
      intro caps hc
      have hM : matchesOf (matcherScan Config.bash.pattern ("$MISSING".toList)) =
          [["$MISSING".toList, "MISSING".toList]] := by decide
      rw [hM, List.mem_singleton] at hc
      subst hc
      exact ⟨"MISSING".toList, rfl, Or.inl rfl⟩)).2

/-- C4: in the bash dialect, a `$\x7bNAME-default\x7d` match whose name
resolves to `NotPresent` is replaced by the captured default verbatim,
regardless of the `on_not_present` policy, and no error is recorded for that
match. -/
theorem inline_default_dominates (onp : OnNotPresent) (get : Str → Except Error Str)
    (n d : Str) (hn : n ≠ []) (hnw : n.all isWordChar = true)
    (hd : d ≠ []) (hdw : d.all isWordChar = true)
    (hget : get n = .error .NotPresent) :
    (∀ caps, caps[1]? = some n → caps[2]? = some d →
      applyMatch get onp caps = some (none, d, n)) ∧
    substitute get { Config.bash with on_not_present := onp }
      ('$' :: '\x7b' :: (n ++ '-' :: (d ++ ['\x7d']))) = some (.ok d) := by
  constructor
  · intro caps h1 h2
    simp [applyMatch, h1, hget, h2]
  · have hscan := bashScan_inline_default n d hn hnw hd hdw
    have hp : ({ Config.bash with on_not_present := onp } : Config).pattern = bashTry := rfl
    have ho : ({ Config.bash with on_not_present := onp } : Config).on_not_present =
        onp := rfl
    rw [substitute, hp, ho, hscan]
    simp [substituteAux, applyMatch, hget]

theorem inline_default_dominates_witness :
    substitute (fun _ => .error .NotPresent)
      { Config.bash with on_not_present := .Error }
      ("$\x7bMISSING-fallback\x7d".toList) = some (.ok ("fallback".toList)) :=
  (inline_default_dominates .Error (fun _ => .error .NotPresent)
    ("MISSING".toList) ("fallback".toList) (by decide) (by decide) (by decide) (by decide)
    rfl).2

/-- C5: under policy `Error`, a call containing an absent default-less
placeholder fails with `NotPresent` even when every other placeholder resolves,
and the scan does not halt: every match's name is still resolved through the
value source. -/
theorem error_policy_fails_scan_completes (config : Config)
    (get : Str → Except Error Str) (s : Str)
    (honp : config.on_not_present = .Error)
    (hall : ∀ caps ∈ matchesOf (matcherScan config.pattern s),
      ∃ name, caps[1]? = some name ∧
        (get name = .error .NotPresent ∨ ∃ v, get name = .ok v))
    (hbad : ∃ caps, caps ∈ matchesOf (matcherScan config.pattern s) ∧
      ∃ name, caps[1]? = some name ∧ get name = .error .NotPresent ∧ caps[2]? = none) :
    substitute get config s = some (.error .NotPresent) ∧
    queries get config s = some (matchNames (matcherScan config.pattern s)) := by
  have happ : ∀ caps ∈ matchesOf (matcherScan config.pattern s),
      (applyMatch get config.on_not_present caps).isSome := by
    intro caps hc
    obtain ⟨name, h1, hcase⟩ := hall caps hc
    rw [honp]
    rcases hcase with hget | ⟨v, hget⟩
    · cases h2 : caps[2]? with
      | none => simp [applyMatch, h1, hget, h2]
      | some dd => simp [applyMatch, h1, hget, h2]
    · simp [applyMatch, h1, hget]
  obtain ⟨errs, t, hsub, herrs, hq⟩ := substitute_eq_of_spec get config s happ
  have hmemNP : ∀ e ∈ errs, e = Error.NotPresent := by
    intro e he
    rw [herrs, List.mem_flatMap] at he
    obtain ⟨caps, hcmem, hemem⟩ := he
    obtain ⟨name, h1, hcase⟩ := hall caps hcmem
    rcases hcase with hget | ⟨v, hget⟩
    · cases h2 : caps[2]? with
      | none =>
        have heq := errsOfMatch_eq get config.on_not_present caps (some .NotPresent) []
          name (by rw [honp]; simp [applyMatch, h1, hget, h2])
        rw [heq] at hemem
        simpa using hemem
      | some dd =>
        have heq := errsOfMatch_eq get config.on_not_present caps none dd name
          (by rw [honp]; simp [applyMatch, h1, hget, h2])
        rw [heq] at hemem
        simp at hemem
    · have heq := errsOfMatch_eq get config.on_not_present caps none v name
        (by rw [honp]; simp [applyMatch, h1, hget])
      rw [heq] at hemem
      simp at hemem
  have hne : errs ≠ [] := by
    obtain ⟨caps, hcmem, name, h1, hget, h2⟩ := hbad
    have heq := errsOfMatch_eq get config.on_not_present caps (some .NotPresent) [] name
      (by rw [honp]; simp [applyMatch, h1, hget, h2])
    apply List.ne_nil_of_mem (a := Error.NotPresent)
    rw [herrs, List.mem_flatMap]
    exact ⟨caps, hcmem, by rw [heq]; simp⟩
  constructor
  · rw [List.getLast?_eq_getLast errs hne] at hsub
    have hlast : errs.getLast hne = .NotPresent := hmemNP _ (List.getLast_mem hne)
    rw [hlast] at hsub
    exact hsub
  · exact hq

theorem error_policy_fails_witness :
    substitute (fun nm => if nm = ['B'] then .ok ['v'] else .error .NotPresent)
      { Config.bash with on_not_present := .Error } ("$A $B".toList) =
      some (.error .NotPresent) :=
  (error_policy_fails_scan_completes
    { Config.bash with on_not_present := .Error }
    (fun nm => if nm = ['B'] then .ok ['v'] else .error .NotPresent)
    ("$A $B".toList) rfl
    (by
      intro caps hc
      have hM : matchesOf (matcherScan
          ({ Config.bash with on_not_present := OnNotPresent.Error } : Config).pattern
          ("$A $B".toList)) = [[['$', 'A'], ['A']], [['$', 'B'], ['B']]] := by decide
      rw [hM] at hc
      simp only [List.mem_cons, List.not_mem_nil, or_false] at hc
      rcases hc with hc | hc
      · subst hc
        exact ⟨['A'], rfl, Or.inl rfl⟩
      · subst hc
        exact ⟨['B'], rfl, Or.inr ⟨['v'], rfl⟩⟩)
    ⟨[['$', 'A'], ['A']], by decide, ['A'], rfl, rfl, rfl⟩).1

/-- C6: the three built-in dialect patterns only produce matches that carry the
mandatory `name` capture (and at most the extra `default` capture), so the
replacer's `expect` over the `name` capture is unreachable and `substitute`
never aborts on a built-in dialect. -/
theorem builtin_patterns_safe :
    (∀ s caps, caps ∈ matchesOf (matcherScan Config.bash.pattern s) →
      (caps[1]?).isSome = true ∧ (caps.length = 2 ∨ caps.length = 3)) ∧
    (∀ s caps, caps ∈ matchesOf (matcherScan Config.docker.pattern s) →
      (caps[1]?).isSome = true ∧ caps.length = 2) ∧
    (∀ s caps, caps ∈ matchesOf (matcherScan Config.cmd.pattern s) →
      (caps[1]?).isSome = true ∧ caps.length = 2) ∧
    (∀ (get : Str → Except Error Str) s, substitute get Config.bash s ≠ none) ∧
    (∀ (get : Str → Except Error Str) s, substitute get Config.docker s ≠ none) ∧
    (∀ (get : Str → Except Error Str) s, substitute get Config.cmd s ≠ none) := by
  have hbash : ∀ s caps, caps ∈ matchesOf (matcherScan Config.bash.pattern s) →
      (caps[1]?).isSome = true ∧ (caps.length = 2 ∨ caps.length = 3) := by
    intro s caps hc
    obtain ⟨pr, c, rest, k, hp⟩ := mem_matchesOf_scanFuel bashTry s.length none s caps hc
    obtain ⟨name, hne, hw, hshape⟩ := bashTry_shape pr c rest caps k hp
    rcases hshape with h | h | ⟨d0, hd0, hdw0, h⟩ <;> subst h <;> simp
  have hdocker : ∀ s caps, caps ∈ matchesOf (matcherScan Config.docker.pattern s) →
      (caps[1]?).isSome = true ∧ caps.length = 2 := by
    intro s caps hc
    obtain ⟨pr, c, rest, k, hp⟩ := mem_matchesOf_scanFuel dockerTry s.length none s caps hc
    obtain ⟨name, hne, hw, h⟩ := dockerTry_shape pr c rest caps k hp
    subst h
    simp
  have hcmd : ∀ s caps, caps ∈ matchesOf (matcherScan Config.cmd.pattern s) →
      (caps[1]?).isSome = true ∧ caps.length = 2 := by
    intro s caps hc
    obtain ⟨pr, c, rest, k, hp⟩ := mem_matchesOf_scanFuel cmdTry s.length none s caps hc
    obtain ⟨name, hne, hw, h⟩ := cmdTry_shape pr c rest caps k hp
    subst h
    simp
  have hget0 : ∀ (caps : List Str), (caps.length = 2 ∨ caps.length = 3) →
      (caps[0]?).isSome = true := by
    intro caps h
    rcases h with h | h <;> (cases caps with
      | nil => simp at h
      | cons a l => simp)
  have hsafe : ∀ (config : Config),
      (∀ s caps, caps ∈ matchesOf (matcherScan config.pattern s) →
        (caps[1]?).isSome = true ∧ (caps.length = 2 ∨ caps.length = 3)) →
      ∀ (get : Str → Except Error Str) s, substitute get config s ≠ none := by
    intro config hshape get s
    have hall : ∀ caps ∈ matchesOf (matcherScan config.pattern s),
        (applyMatch get config.on_not_present caps).isSome := by
      intro caps hc
      obtain ⟨h1, hlen⟩ := hshape s caps hc
      exact applyMatch_isSome get config.on_not_present caps h1 (hget0 caps hlen)
    obtain ⟨errs, t, hsub, _, _⟩ := substitute_eq_of_spec get config s hall
    rw [hsub]
    simp
  exact ⟨hbash, hdocker, hcmd, hsafe Config.bash hbash,
    hsafe Config.docker (fun s caps hc => ⟨(hdocker s caps hc).1,
      Or.inl (hdocker s caps hc).2⟩),
    hsafe Config.cmd (fun s caps hc => ⟨(hcmd s caps hc).1, Or.inl (hcmd s caps hc).2⟩)⟩

theorem builtin_patterns_safe_witness :
    ((([['$', 'A'], ['A']] : List Str)[1]?).isSome = true ∧
      (([['$', 'A'], ['A']] : List Str).length = 2 ∨
        ([['$', 'A'], ['A']] : List Str).length = 3)) ∧
    substitute (fun _ => .error .NotPresent) Config.bash ("$A".toList) ≠ none :=
  ⟨builtin_patterns_safe.1 ("$A".toList) [['$', 'A'], ['A']] (by decide),
   builtin_patterns_safe.2.2.2.1 (fun _ => .error .NotPresent) ("$A".toList)⟩

/-- C10 (counterexample to the claim as stated): the input `$\x7bN-$y\x7d` has
a default text containing the non-word character `$`, yet the span is not
emitted verbatim and resolution is triggered: the inner `$y` is itself matched
as a placeholder, so with `y ↦ Z` the output is `$\x7bN-Z\x7d`. -/
theorem bad_default_partially_matched :
    substitute (fun nm => if nm = ['y'] then .ok ['Z'] else .error .NotPresent)
      Config.bash ("$\x7bN-$y\x7d".toList) = some (.ok ("$\x7bN-Z\x7d".toList)) ∧
    queries (fun nm => if nm = ['y'] then .ok ['Z'] else .error .NotPresent)
      Config.bash ("$\x7bN-$y\x7d".toList) = some [['y']] ∧
    ("$\x7bN-Z\x7d".toList : Str) ≠ "$\x7bN-$y\x7d".toList :=
  ⟨rfl, rfl, by decide⟩

/-- C10 (amended): a bash match always captures a nonempty word-character
default (every match is `$name`, `$\x7bname\x7d` or `$\x7bname-default\x7d`
with nonempty word `name`/`default`), so a span `$\x7bNAME-\x7d` or
`$\x7bNAME-X\x7d` with `X` empty or — among ASCII text — containing a
non-word character is never itself a match; when such a span contains no
further `$` (and `X` no `\x7d`), the whole input is emitted verbatim and no
value-source resolution happens.  `X` is confined to ASCII because that is
the fragment on which the embedded word class coincides with the program's
Unicode `\w`. -/
theorem bad_default_not_matched (get : Str → Except Error Str) :
    (∀ prev c rest caps k, bashTry prev c rest = some (caps, k) →
      ∃ name, name ≠ [] ∧ name.all isWordChar = true ∧
        (caps = ['$' :: name, name] ∨
         caps = ['$' :: '\x7b' :: (name ++ ['\x7d']), name] ∨
         ∃ d, d ≠ [] ∧ d.all isWordChar = true ∧
           caps = ['$' :: '\x7b' :: (name ++ '-' :: (d ++ ['\x7d'])), name, d])) ∧
    (∀ n d, n ≠ [] → n.all isWordChar = true →
      d.all isAscii = true →
      (d = [] ∨ d.all isWordChar = false) → '$' ∉ d → '\x7d' ∉ d →
      substitute get Config.bash ('$' :: '\x7b' :: (n ++ '-' :: (d ++ ['\x7d']))) =
        some (.ok ('$' :: '\x7b' :: (n ++ '-' :: (d ++ ['\x7d'])))) ∧
      queries get Config.bash ('$' :: '\x7b' :: (n ++ '-' :: (d ++ ['\x7d']))) =
        some []) := by
  refine ⟨bashTry_shape, fun n d hn hnw _ hd hds hdr => ?_⟩
  have hscan := bashScan_bad_default n d hn hnw hd hds hdr
  have hm : matchesOf (matcherScan Config.bash.pattern
      ('$' :: '\x7b' :: (n ++ '-' :: (d ++ ['\x7d'])))) = [] := by
    have hpat : Config.bash.pattern = bashTry := rfl
    rw [hpat, hscan, matchesOf_map_lit]
  exact substitute_no_match get Config.bash _ hm

theorem bad_default_not_matched_witness :
    substitute (fun _ => .error .NotPresent) Config.bash ("$\x7bN- \x7d".toList) =
      some (.ok ("$\x7bN- \x7d".toList)) :=
  ((bad_default_not_matched (fun _ => .error .NotPresent)).2 ['N'] [' ']
    (by decide) (by decide) (by decide) (Or.inr (by decide)) (by decide) (by decide)).1

end Substitute
